import Mathlib

/-!
Verification development for the rcss bundler (src/main.rs).

Text is modelled as List Char. The six regex rewrite rules of the
function minify in main.rs are embedded as executable Lean functions
with the replace_all semantics of the regex crate: scan left to right,
take the leftmost match, emit the replacement, and continue scanning
immediately after the matched text (the replacement is never rescanned).
The regex whitespace class is modelled by its ASCII whitespace
characters, and the dot of the comment rule matches any character
except a newline, as in the regex crate's default mode.
-/

namespace Rcss

/-- Convert a string literal to the List Char text representation. -/
def str (s : String) : List Char := s.data

/-- Whitespace test for the regex whitespace class (ASCII part). -/
def isWs (c : Char) : Bool :=
  c = ' ' || c = '\t' || c = '\n' || c = '\r' || c = '\x0b' || c = '\x0c'

/-- Punctuation class of rules 3 and 4 in main.rs lines 83 and 84:
one of comma, colon, semicolon, open brace, close brace, greater-than. -/
def isPunct (c : Char) : Bool :=
  c = ',' || c = ':' || c = ';' || c = '\x7b' || c = '\x7d' || c = '>'

/-- Worker for rule 1: the flag records whether the scanner is inside a
whitespace run whose single replacement space has already been emitted. -/
def collapseWsAux : Bool → List Char → List Char
  | _, [] => []
  | inRun, c :: rest =>
    if isWs c then
      if inRun then collapseWsAux true rest
      else ' ' :: collapseWsAux true rest
    else c :: collapseWsAux false rest

/-- Rule 1 (main.rs line 81): replace every maximal run of whitespace
characters by a single space character. -/
def collapseWs (l : List Char) : List Char := collapseWsAux false l

/-- Rule 2 (main.rs line 82): replace the three-character literal
semicolon-space-closebrace by a closing brace. -/
def dropSemiBeforeBrace : List Char → List Char
  | ';' :: ' ' :: '\x7d' :: rest => '\x7d' :: dropSemiBeforeBrace rest
  | c :: rest => c :: dropSemiBeforeBrace rest
  | [] => []

/-- Rule 3 (main.rs line 83): a punctuation character followed by one
whitespace character is replaced by the punctuation character alone. -/
def trimAfterPunct : List Char → List Char
  | [] => []
  | [c] => [c]
  | c :: d :: rest =>
    if isPunct c && isWs d then c :: trimAfterPunct rest
    else c :: trimAfterPunct (d :: rest)

/-- Rule 4 (main.rs line 84): one whitespace character followed by a
punctuation character is replaced by the punctuation character alone. -/
def trimBeforePunct : List Char → List Char
  | [] => []
  | [c] => [c]
  | c :: d :: rest =>
    if isWs c && isPunct d then d :: trimBeforePunct rest
    else c :: trimBeforePunct (d :: rest)

/-- Rule 5 (main.rs line 85): replace the seven-character literal
zero-space-zero-space-zero-space-zero by a single zero. -/
def collapseZeros : List Char → List Char
  | '0' :: ' ' :: '0' :: ' ' :: '0' :: ' ' :: '0' :: rest =>
    '0' :: collapseZeros rest
  | c :: rest => c :: collapseZeros rest
  | [] => []

/-- Scan for the closing star-slash of a comment, implementing the
non-greedy dot-star of the pattern on main.rs line 86: the dot matches
any character except a newline, so the search fails at a newline.
On success, return the text after the closing star-slash. -/
def findCommentClose : List Char → Option (List Char)
  | [] => none
  | [_] => none
  | c :: d :: rest =>
    if c = '*' && d = '/' then some rest
    else if c = '\n' then none
    else findCommentClose (d :: rest)

/-- Worker for rule 6, with fuel so the recursion is structural; fuel
equal to the length of the text is always enough, since every step
consumes at least one character. On a slash-star, if a close is found
the comment is deleted and scanning resumes after it; if no close is
found before a newline or the end, the regex match at this start
position fails and scanning moves one character forward. -/
def removeCommentsF : Nat → List Char → List Char
  | 0, l => l
  | _ + 1, [] => []
  | f + 1, '/' :: '*' :: rest =>
    match findCommentClose rest with
    | some rest' => removeCommentsF f rest'
    | none => '/' :: removeCommentsF f ('*' :: rest)
  | f + 1, c :: rest => c :: removeCommentsF f rest

/-- Rule 6 (main.rs line 86): remove every comment, non-greedily. -/
def removeComments (l : List Char) : List Char := removeCommentsF l.length l

/-- The ordered rule list of main.rs lines 80 to 87, one Lean function
per (pattern, replacement) pair, in source order. -/
def cssRules : List (List Char → List Char) :=
  [collapseWs, dropSemiBeforeBrace, trimAfterPunct, trimBeforePunct,
   collapseZeros, removeComments]

/-- The function minify of main.rs lines 77 to 94, applied to the text
that the read into the string buffer produced: the loop on lines 90 to
92 folds the rules over the buffer in order. -/
def minify (s : List Char) : List Char :=
  cssRules.foldl (fun buffer rule => rule buffer) s

/-- Substring occurrence test: occursIn pat l is true when pat occurs
as a contiguous substring of l, embedding the contains method of str
used on main.rs line 137. -/
def occursIn (pat : List Char) : List Char → Bool
  | [] => pat.isEmpty
  | c :: rest => pat.isPrefixOf (c :: rest) || occursIn pat rest

/-- The destination file path of main.rs line 116: the folder path and
the file name joined by a slash. -/
def destPath (folder name : List Char) : List Char := folder ++ '/' :: name

/-- The file selector of main.rs lines 135 to 138: keep the paths that
end with the extension string and do not contain the destination file
path as a substring. -/
def selectFiles (paths : List (List Char)) (ext dest : List Char) :
    List (List Char) :=
  paths.filter fun p => ext.isSuffixOf p && !(occursIn dest p)

/-- A directory tree as seen by the traversal: entry names carry no
directory prefix; file contents are irrelevant to recurse_files and are
delivered separately by the open oracle of the bundler model. -/
inductive FsTree where
  | file (name : List Char)
  | dir (name : List Char) (entries : List FsTree)

/-- Name of a directory entry. -/
def entryName : FsTree → List Char
  | .file n => n
  | .dir n _ => n

mutual
/-- Contribution of one directory entry to the traversal, the body of
the loop on main.rs lines 33 to 43: a file entry contributes its joined
path, a directory entry contributes the recursive traversal of its
entries under the joined path. -/
def filesOfTree (d : List Char) : FsTree → List (List Char)
  | .file n => [d ++ '/' :: n]
  | .dir n es => recurseFiles (d ++ '/' :: n) es
/-- The function recurse_files of main.rs lines 27 to 45, applied to a
directory whose rendered path is d and whose listing is the given entry
list: the contributions of the entries are appended in listing order. -/
def recurseFiles (d : List Char) : List FsTree → List (List Char)
  | [] => []
  | e :: rest => filesOfTree d e ++ recurseFiles d rest
end

/-- A name a real directory entry can have: nonempty and without a path
separator. -/
def validNameB (n : List Char) : Bool :=
  !(decide (n = [])) && !(decide ('/' ∈ n))

mutual
/-- Well-formedness of one entry of a real directory tree. -/
def wfTreeB : FsTree → Bool
  | .file n => validNameB n
  | .dir n es => validNameB n && wfEntriesB es
/-- Well-formedness of a directory listing of a real directory tree:
every entry is well-formed and sibling names are distinct. -/
def wfEntriesB : List FsTree → Bool
  | [] => true
  | e :: rest =>
    wfTreeB e && !(decide (entryName e ∈ rest.map entryName)) &&
      wfEntriesB rest
end

/-- Specification predicate, from the spec's words: p is the path of a
regular file reachable by recursive descent from the directory with
rendered path d and listing es. -/
inductive FileAt : List Char → List FsTree → List Char → Prop where
  | base {d es n} : FsTree.file n ∈ es → FileAt d es (d ++ '/' :: n)
  | step {d es n es' p} : FsTree.dir n es' ∈ es →
      FileAt (d ++ '/' :: n) es' p → FileAt d es p

/-- Specification predicate, from the spec's words: p is the path of a
directory reachable by recursive descent from the directory with
rendered path d and listing es. -/
inductive DirAt : List Char → List FsTree → List Char → Prop where
  | base {d es n es'} : FsTree.dir n es' ∈ es → DirAt d es (d ++ '/' :: n)
  | step {d es n es' p} : FsTree.dir n es' ∈ es →
      DirAt (d ++ '/' :: n) es' p → DirAt d es p

/-- Outcome of opening and reading one selected file, modelling
main.rs lines 142 to 146 together with line 89: either the open fails
(the unwrap on line 146 panics), or the open succeeds and the ignored
read_to_string call on line 89 leaves buf in the buffer while returning
success or failure in the discarded flag. -/
inductive OpenResult where
  | failed
  | opened (buf : List Char) (readOk : Bool)
deriving DecidableEq

/-- True when the file could not be opened or the read reported an
error. -/
def readFailed : OpenResult → Bool
  | .failed => true
  | .opened _ ok => !ok

/-- Observable events of one run of minify_files, in order. -/
inductive Event where
  | walkDir (d : List Char)
  | openTruncDest (p : List Char)
  | openRead (p : List Char)
  | panicked
  | writeDest (content : List Char)
deriving DecidableEq

/-- Event classifiers. -/
def isRead : Event → Bool
  | .openRead _ => true
  | _ => false

def isOpenDest : Event → Bool
  | .openTruncDest _ => true
  | _ => false

def isWrite : Event → Bool
  | .writeDest _ => true
  | _ => false

/-- The read-and-minify map of main.rs lines 139 to 148 over the
selected paths, with rho the open oracle: a failed open panics (the
unwrap on line 146) and stops the run with no accumulated content; a
successful open contributes the minified buffer, the discarded read
result notwithstanding. Returns the events emitted and, when no panic
occurred, the concatenated bundle text. -/
def readMinifyAll (rho : List Char → OpenResult) :
    List (List Char) → List Event × Option (List Char)
  | [] => ([], some [])
  | p :: rest =>
    match rho p with
    | .failed => ([Event.panicked], none)
    | .opened buf _ =>
      let next := readMinifyAll rho rest
      (Event.openRead p :: next.1, next.2.map fun r => minify buf ++ r)

/-- The function minify_files of main.rs lines 115 to 150 as the event
trace of one run: resolve the destination path (line 116), walk the
folder (line 118), open the destination with create, write and truncate
(lines 124 to 134), filter the discovered paths (lines 135 to 138),
read and minify each selected file (lines 139 to 148), and finally
write the whole bundle in one write_all call (line 149) unless a read
panicked first. -/
def minifyFilesTrace (rho : List Char → OpenResult) (fs : List FsTree)
    (extension folder name : List Char) : List Event :=
  let dest := destPath folder name
  let selected := selectFiles (recurseFiles folder fs) extension dest
  let outcome := readMinifyAll rho selected
  Event.walkDir folder :: Event.openTruncDest dest ::
    (outcome.1 ++ (outcome.2.map Event.writeDest).toList)

/-- Claim C7 as stated: in a run's trace, every read of the scanned
tree precedes the opening and truncation of the destination, so the
bundle is fully computed before the destination is touched. -/
def BundleBeforeDestOpen (tr : List Event) : Prop :=
  ∀ i j : Fin tr.length, isRead (tr.get i) = true →
    isOpenDest (tr.get j) = true → (i : Nat) < (j : Nat)

/-- Claim C8 as stated: if some selected file cannot be opened or read,
then no bundle content is written to the destination. -/
def AbortOnReadFailure (rho : List Char → OpenResult) (fs : List FsTree)
    (extension folder name : List Char) : Prop :=
  (∃ p ∈ selectFiles (recurseFiles folder fs) extension
      (destPath folder name), readFailed (rho p) = true) →
  ∀ e ∈ minifyFilesTrace rho fs extension folder name, isWrite e = false

/-- An operating system file name: either valid UTF-8, rendered as its
text, or an invalid byte sequence, identified abstractly. -/
inductive RawName where
  | utf8 (s : List Char)
  | invalid (id : Nat)
deriving DecidableEq

/-- A directory tree whose entry names may be invalid UTF-8. -/
inductive RawFsTree where
  | file (name : RawName)
  | dir (name : RawName) (entries : List RawFsTree)

/-- Joining a path and an entry name, as entry.path() on main.rs lines
37 and 41: the result renders as valid UTF-8 exactly when both parts
do; none stands for a path that is not valid UTF-8. -/
def joinRaw : Option (List Char) → RawName → Option (List Char)
  | some d, .utf8 n => some (d ++ '/' :: n)
  | _, _ => none

/-!
The functions below embed recurse_files of main.rs lines 27 to 45 over
raw names: the to_str call on line 41 yields none on a file path that
is not valid UTF-8 and the unwrap then panics, modelled by a none
result that aborts the whole traversal; directory paths are never
converted by to_str, so an invalid directory name alone does not panic.
-/
mutual
/-- Contribution of one raw entry: on a file, the to_str of the joined
path or the panic; on a directory, the recursive traversal. -/
def filesOfRaw (d : Option (List Char)) : RawFsTree → Option (List (List Char))
  | .file n =>
    match joinRaw d n with
    | none => none
    | some p => some [p]
  | .dir n es => recurseFilesRaw (joinRaw d n) es
/-- Traversal of a raw listing: the contributions of the entries are
appended in listing order; a panic anywhere aborts the whole
traversal. -/
def recurseFilesRaw (d : Option (List Char)) :
    List RawFsTree → Option (List (List Char))
  | [] => some []
  | e :: rest =>
    match filesOfRaw d e with
    | none => none
    | some ps => (recurseFilesRaw d rest).map fun r => ps ++ r
end

/-- Text of a raw name, defaulting to the empty text off the valid
range. -/
def projName : RawName → List Char
  | .utf8 s => s
  | .invalid _ => []

mutual
/-- Projection of a raw tree onto the plain tree model. -/
def projTree : RawFsTree → FsTree
  | .file n => .file (projName n)
  | .dir n es => .dir (projName n) (projEntries es)
/-- Projection of a raw listing onto the plain tree model. -/
def projEntries : List RawFsTree → List FsTree
  | [] => []
  | e :: rest => projTree e :: projEntries rest
end

/-- Validity of one raw name. -/
def rawValidB : RawName → Bool
  | .utf8 _ => true
  | .invalid _ => false

mutual
/-- Every name in the raw tree is valid UTF-8. -/
def allValidTreeB : RawFsTree → Bool
  | .file n => rawValidB n
  | .dir n es => rawValidB n && allValidEntriesB es
/-- Every name in the raw listing is valid UTF-8. -/
def allValidEntriesB : List RawFsTree → Bool
  | [] => true
  | e :: rest => allValidTreeB e && allValidEntriesB rest
end

mutual
/-- Some regular file reachable through this entry has a full path that
is not valid UTF-8, given whether the directory path above it is itself
valid. -/
def hasInvalidTreeB (dValid : Bool) : RawFsTree → Bool
  | .file n => !(dValid && rawValidB n)
  | .dir n es => hasInvalidListB (dValid && rawValidB n) es
/-- Some regular file reachable from this listing has a full path that
is not valid UTF-8, given whether the directory path above the listing
is itself valid. -/
def hasInvalidListB (dValid : Bool) : List RawFsTree → Bool
  | [] => false
  | e :: rest => hasInvalidTreeB dValid e || hasInvalidListB dValid rest
end

/-- Concrete directory listing with the two stylesheet files of the
end-to-end scenario. -/
def fsAB : List FsTree := [FsTree.file (str "a.css"), FsTree.file (str "b.css")]

/-- Open oracle for the end-to-end scenario: both files open and read
without error, with the contents of the spec's scenario. -/
def rhoAB : List Char → OpenResult := fun p =>
  if p = str "assets/a.css" then
    OpenResult.opened (str "body \x7b color: red; \x7d") true
  else if p = str "assets/b.css" then
    OpenResult.opened (str "/* header */ .h1 \x7b margin: 0 0 0 0; \x7d") true
  else OpenResult.failed

/-- Open oracle in which the second file opens but its read reports an
error, leaving an empty buffer. -/
def rhoReadFail : List Char → OpenResult := fun p =>
  if p = str "r/a.css" then OpenResult.opened (str "q \x7b w: e \x7d") true
  else if p = str "r/b.css" then OpenResult.opened [] false
  else OpenResult.failed

/-- Open oracle in which no file can be opened. -/
def rhoNoOpen : List Char → OpenResult := fun _ => OpenResult.failed

end Rcss

namespace Rcss

/-! Theorems. -/

/-- Helper: occursIn pat l decides the infix relation. -/
theorem occursIn_iff (pat l : List Char) : occursIn pat l = true ↔ pat <:+: l := by
  induction l with
  | nil =>
    simp only [occursIn, List.isEmpty_iff]
    constructor
    · intro h; simp [h]
    · intro h; exact List.eq_nil_of_infix_nil h
  | cons c rest ih =>
    simp [occursIn, List.infix_cons_iff, List.isPrefixOf_iff_prefix, ih,
      Bool.or_eq_true]

/-- Helper: the substring test returns false exactly off the infix
relation. -/
theorem occursIn_eq_false_iff (pat l : List Char) :
    occursIn pat l = false ↔ ¬ pat <:+: l := by
  constructor
  · intro h hin
    rw [(occursIn_iff pat l).mpr hin] at h
    cases h
  · intro h
    cases hh : occursIn pat l
    · rfl
    · exact absurd ((occursIn_iff pat l).mp hh) h

/-- Helper: membership in the file selector's output. -/
theorem mem_selectFiles {paths : List (List Char)} {ext dest p : List Char} :
    p ∈ selectFiles paths ext dest ↔
      p ∈ paths ∧ ext <:+ p ∧ ¬ dest <:+: p := by
  simp [selectFiles, List.mem_filter, List.isSuffixOf_iff_suffix,
    occursIn_eq_false_iff, and_assoc]

/-- C2: the rule engine is the fixed six-rule list of main.rs lines 80
to 87, applied to every content buffer exactly once, strictly in source
order, the output of each rule feeding the next: whitespace collapsing,
then semicolon-before-brace removal, then trimming after punctuation,
then trimming before punctuation, then zero-shorthand collapsing, then
non-greedy comment removal. -/
theorem rule_engine_is_ordered_six_rule_pipeline :
    cssRules.length = 6 ∧
    ∀ t, minify t =
      removeComments (collapseZeros (trimBeforePunct (trimAfterPunct
        (dropSemiBeforeBrace (collapseWs t))))) :=
  ⟨rfl, fun _ => rfl⟩

/-- C1 fails as stated: minifying the two scenario files independently
and concatenating the results yields a bundle with a single space
before the second selector (left behind when rule 6 deletes the leading
comment after the whitespace rules have run), not the spec's string. -/
theorem bundle_scenario_counterexample :
    minify (str "body \x7b color: red; \x7d") ++
      minify (str "/* header */ .h1 \x7b margin: 0 0 0 0; \x7d")
      ≠ str "body\x7bcolor:red\x7d.h1\x7bmargin:0\x7d" := by decide

/-- C1 amended: the bundle of the two scenario files is the
concatenation of their independently minified contents with no
separator inserted, namely the spec's string except for one leftover
space before the second selector; the full bundler run writes exactly
that text. -/
theorem bundle_scenario_amended :
    minify (str "body \x7b color: red; \x7d") ++
      minify (str "/* header */ .h1 \x7b margin: 0 0 0 0; \x7d")
      = str "body\x7bcolor:red\x7d .h1\x7bmargin:0\x7d" ∧
    Event.writeDest (str "body\x7bcolor:red\x7d .h1\x7bmargin:0\x7d") ∈
      minifyFilesTrace rhoAB fsAB (str "css") (str "assets")
        (str "style.css") := by decide

/-- C3 fails as stated: the full rule sequence is not idempotent, since
comment removal can leave two adjacent spaces that only a second pass
collapses. -/
theorem minify_not_idempotent_counterexample :
    minify (minify (str "x /* c */ y")) ≠ minify (str "x /* c */ y") := by
  decide

/-- C3 amended: a second pass is not always a no-op: rule 6 deletes a
comment after the whitespace rules have run, so the spaces on the two
sides of a removed comment become adjacent; one pass turns the sample
into a text with a double space and the second pass collapses it. -/
theorem minify_second_pass_collapses_comment_gap :
    minify (str "x /* c */ y") = str "x  y" ∧
    minify (minify (str "x /* c */ y")) = str "x y" := by decide

/-- C9: comment removal is non-greedy: on the sample with two comments
each one is removed independently and the text between them survives,
so the match never spans from the first opener to the last closer; and
a comment whose interior originally spanned a newline is removed by the
full pipeline, because rule 1 has already rewritten the newline to a
space, although rule 6 alone cannot match across the newline. -/
theorem comment_removal_non_greedy :
    minify (str "/* a */ text /* b */") = str " text " ∧
    removeComments (str "/* a */ text /* b */") = str " text " ∧
    minify (str "a/*x\ny*/b") = str "ab" ∧
    removeComments (str "a/*x\ny*/b") = str "a/*x\ny*/b" := by decide

/-- C4: the file selector returns exactly the subsequence, in the same
relative order as discovered, of the paths that end with the extension
string and do not contain the destination path as a substring. -/
theorem selector_exact_subsequence (paths : List (List Char))
    (ext dest : List Char) :
    List.Sublist (selectFiles paths ext dest) paths ∧
    ∀ p, p ∈ selectFiles paths ext dest ↔
      p ∈ paths ∧ ext <:+ p ∧ ¬ dest <:+: p :=
  ⟨List.filter_sublist paths, fun _ => mem_selectFiles⟩

/-- C5: the destination path, resolved as folder slash name, is never a
member of the selected file set, whatever the discovered paths and the
extension. -/
theorem destination_never_selected (paths : List (List Char))
    (ext folder name : List Char) :
    destPath folder name ∉ selectFiles paths ext (destPath folder name) :=
  fun h => (mem_selectFiles.mp h).2.2 (List.infix_refl _)

/-- Helper: every traversal output lies strictly below the root path. -/
theorem recurseFiles_shape (d : List Char) (es : List FsTree) :
    ∀ p ∈ recurseFiles d es, ∃ t, p = d ++ '/' :: t :=
  recurseFiles.induct
    (fun d e => ∀ p ∈ filesOfTree d e, ∃ t, p = d ++ '/' :: t)
    (fun d es => ∀ p ∈ recurseFiles d es, ∃ t, p = d ++ '/' :: t)
    (by intro d n p hp
        rw [filesOfTree] at hp
        simp only [List.mem_singleton] at hp
        exact ⟨n, hp⟩)
    (by intro d n es ih p hp
        rw [filesOfTree] at hp
        obtain ⟨t, ht⟩ := ih p hp
        exact ⟨n ++ '/' :: t, by simp [ht]⟩)
    (by intro d p hp; rw [recurseFiles] at hp; cases hp)
    (by intro d e rest ih1 ih2 p hp
        rw [recurseFiles] at hp
        rcases List.mem_append.mp hp with h | h
        · exact ih1 p h
        · exact ih2 p h)
    d es

/-- Helper: the same shape statement for one entry's contribution. -/
theorem filesOfTree_shape (d : List Char) (e : FsTree) :
    ∀ p ∈ filesOfTree d e, ∃ t, p = d ++ '/' :: t := by
  cases e with
  | file n =>
    intro p hp
    rw [filesOfTree] at hp
    simp only [List.mem_singleton] at hp
    exact ⟨n, hp⟩
  | dir n es =>
    intro p hp
    rw [filesOfTree] at hp
    obtain ⟨t, ht⟩ := recurseFiles_shape _ _ p hp
    exact ⟨n ++ '/' :: t, by simp [ht]⟩

/-- Helper: every contribution of one entry starts with that entry's
name as its first path segment below the root; the remainder is empty
for a file and slash-headed for a directory. -/
theorem filesOfTree_origin (d : List Char) (e : FsTree) :
    ∀ p ∈ filesOfTree d e, ∃ t, p = d ++ '/' :: (entryName e ++ t) ∧
      (t = [] ∨ ∃ t', t = '/' :: t') := by
  cases e with
  | file n =>
    intro p hp
    rw [filesOfTree] at hp
    simp only [List.mem_singleton] at hp
    exact ⟨[], by simp [hp, entryName], Or.inl rfl⟩
  | dir n es =>
    intro p hp
    rw [filesOfTree] at hp
    obtain ⟨t, ht⟩ := recurseFiles_shape _ _ p hp
    exact ⟨'/' :: t, by simp [ht, entryName], Or.inr ⟨t, rfl⟩⟩

/-- Helper: every traversal output originates from some entry of the
listing, below that entry's name. -/
theorem recurseFiles_origin (d : List Char) (es : List FsTree) :
    ∀ p ∈ recurseFiles d es, ∃ e ∈ es, ∃ t,
      p = d ++ '/' :: (entryName e ++ t) ∧
      (t = [] ∨ ∃ t', t = '/' :: t') := by
  induction es with
  | nil => intro p hp; rw [recurseFiles] at hp; cases hp
  | cons e rest ih =>
    intro p hp
    rw [recurseFiles] at hp
    rcases List.mem_append.mp hp with h | h
    · obtain ⟨t, h1, h2⟩ := filesOfTree_origin d e p h
      exact ⟨e, List.mem_cons_self e rest, t, h1, h2⟩
    · obtain ⟨e', he', t, h1, h2⟩ := ih p h
      exact ⟨e', List.mem_cons_of_mem e he', t, h1, h2⟩

/-- Helper: a path segment free of separators followed by an empty or
slash-headed remainder determines the segment. -/
theorem seg_eq {a b x y : List Char} (ha : '/' ∉ a) (hb : '/' ∉ b)
    (hx : x = [] ∨ ∃ x', x = '/' :: x') (hy : y = [] ∨ ∃ y', y = '/' :: y')
    (h : a ++ x = b ++ y) : a = b := by
  rcases List.append_eq_append_iff.mp h with ⟨c, hb2, hx2⟩ | ⟨c, ha2, hy2⟩
  · cases c with
    | nil => simpa using hb2.symm
    | cons ch c' =>
      exfalso
      rcases hx with rfl | ⟨x', rfl⟩
      · cases hx2
      · have hch : ch = '/' := by
          have := hx2
          simp only [List.cons_append] at this
          exact (List.cons.injEq _ _ _ _ ▸ this).1.symm
        apply hb
        rw [hb2, hch]
        simp
  · cases c with
    | nil => simpa using ha2
    | cons ch c' =>
      exfalso
      rcases hy with rfl | ⟨y', rfl⟩
      · cases hy2
      · have hch : ch = '/' := by
          have := hy2
          simp only [List.cons_append] at this
          exact (List.cons.injEq _ _ _ _ ▸ this).1.symm
        apply ha
        rw [ha2, hch]
        simp

/-- Helper: a valid name is nonempty and separator-free. -/
theorem validNameB_iff (n : List Char) :
    validNameB n = true ↔ n ≠ [] ∧ '/' ∉ n := by
  simp [validNameB]

/-- Helper: a well-formed listing has well-formed entries. -/
theorem wfEntriesB_mem {es : List FsTree} {e : FsTree}
    (hw : wfEntriesB es = true) (he : e ∈ es) : wfTreeB e = true := by
  induction es with
  | nil => cases he
  | cons e' rest ih =>
    rw [wfEntriesB] at hw
    simp only [Bool.and_eq_true] at hw
    rcases List.mem_cons.mp he with rfl | h
    · exact hw.1.1
    · exact ih hw.2 h

/-- Helper: a well-formed listing has a well-formed tail. -/
theorem wfEntriesB_tail {es : List FsTree} {e : FsTree}
    (hw : wfEntriesB (e :: es) = true) : wfEntriesB es = true := by
  rw [wfEntriesB] at hw
  simp only [Bool.and_eq_true] at hw
  exact hw.2

/-- Helper: in a well-formed listing the head's name is fresh. -/
theorem wfEntriesB_head_fresh {es : List FsTree} {e : FsTree}
    (hw : wfEntriesB (e :: es) = true) :
    entryName e ∉ es.map entryName := by
  rw [wfEntriesB] at hw
  simp only [Bool.and_eq_true] at hw
  simpa using hw.1.2

/-- Helper: every entry of a well-formed listing has a valid name. -/
theorem wfTreeB_validName {e : FsTree} (hw : wfTreeB e = true) :
    validNameB (entryName e) = true := by
  cases e with
  | file n => rw [wfTreeB] at hw; exact hw
  | dir n es =>
    rw [wfTreeB] at hw
    simp only [Bool.and_eq_true] at hw
    exact hw.1

/-- Helper: a well-formed directory entry has a well-formed listing. -/
theorem wfTreeB_dir {n : List Char} {es : List FsTree}
    (hw : wfTreeB (FsTree.dir n es) = true) : wfEntriesB es = true := by
  rw [wfTreeB] at hw
  simp only [Bool.and_eq_true] at hw
  exact hw.2

/-- Helper: within a well-formed listing, the entry name determines the
entry. -/
theorem wf_entry_name_inj {es : List FsTree} {e1 e2 : FsTree}
    (hw : wfEntriesB es = true) (h1 : e1 ∈ es) (h2 : e2 ∈ es)
    (hn : entryName e1 = entryName e2) : e1 = e2 := by
  induction es with
  | nil => cases h1
  | cons e rest ih =>
    rcases List.mem_cons.mp h1 with h1h | h1t
    · rcases List.mem_cons.mp h2 with h2h | h2t
      · rw [h1h, h2h]
      · exfalso
        apply wfEntriesB_head_fresh hw
        rw [← h1h, hn]
        exact List.mem_map_of_mem entryName h2t
    · rcases List.mem_cons.mp h2 with h2h | h2t
      · exfalso
        apply wfEntriesB_head_fresh hw
        rw [← h2h, ← hn]
        exact List.mem_map_of_mem entryName h1t
      · exact ih (wfEntriesB_tail hw) h1t h2t

/-- Helper: the traversal of a well-formed listing lists no path
twice. -/
theorem recurseFiles_nodup (d : List Char) (es : List FsTree)
    (hw : wfEntriesB es = true) : (recurseFiles d es).Nodup := by
  refine recurseFiles.induct
    (fun d e => wfTreeB e = true → (filesOfTree d e).Nodup)
    (fun d es => wfEntriesB es = true → (recurseFiles d es).Nodup)
    ?_ ?_ ?_ ?_ d es hw
  · intro d n _
    rw [filesOfTree]
    exact List.nodup_singleton _
  · intro d n es ih hwt
    rw [filesOfTree]
    exact ih (wfTreeB_dir hwt)
  · intro d _
    rw [recurseFiles]
    exact List.nodup_nil
  · intro d e rest ih1 ih2 hwc
    rw [recurseFiles]
    have hwe : wfTreeB e = true := wfEntriesB_mem hwc (List.mem_cons_self e rest)
    refine List.Nodup.append (ih1 hwe) (ih2 (wfEntriesB_tail hwc)) ?_
    intro p hp1 hp2
    obtain ⟨t1, h1, hx1⟩ := filesOfTree_origin d e p hp1
    obtain ⟨e', he', t2, h2, hx2⟩ := recurseFiles_origin d rest p hp2
    have hwe' : wfTreeB e' = true := wfEntriesB_mem (wfEntriesB_tail hwc) he'
    have hva := (validNameB_iff _).mp (wfTreeB_validName hwe)
    have hvb := (validNameB_iff _).mp (wfTreeB_validName hwe')
    have hc := List.append_cancel_left (h1.symm.trans h2)
    injection hc with _ heq
    have hname : entryName e = entryName e' := seg_eq hva.2 hvb.2 hx1 hx2 heq
    exact wfEntriesB_head_fresh hwc (hname ▸ List.mem_map_of_mem entryName he')

/-- Helper: nothing is a reachable file of the empty listing. -/
theorem FileAt_nil {d p : List Char} : ¬ FileAt d [] p := by
  intro h
  cases h with
  | base hm => cases hm
  | step hm _ => cases hm

/-- Helper: inversion of reachability through a listing head. -/
theorem FileAt_cons {d : List Char} {e : FsTree} {rest : List FsTree}
    {p : List Char} :
    FileAt d (e :: rest) p ↔
      ((∃ n, e = FsTree.file n ∧ p = d ++ '/' :: n) ∨
       (∃ n es', e = FsTree.dir n es' ∧ FileAt (d ++ '/' :: n) es' p)) ∨
      FileAt d rest p := by
  constructor
  · intro h
    cases h with
    | base hm =>
      rcases List.mem_cons.mp hm with he | ht
      · exact Or.inl (Or.inl ⟨_, he.symm, rfl⟩)
      · exact Or.inr (FileAt.base ht)
    | step hm hf =>
      rcases List.mem_cons.mp hm with he | ht
      · exact Or.inl (Or.inr ⟨_, _, he.symm, hf⟩)
      · exact Or.inr (FileAt.step ht hf)
  · rintro ((⟨n, rfl, rfl⟩ | ⟨n, es', rfl, hf⟩) | h)
    · exact FileAt.base (List.mem_cons_self _ _)
    · exact FileAt.step (List.mem_cons_self _ _) hf
    · cases h with
      | base hm => exact FileAt.base (List.mem_cons_of_mem _ hm)
      | step hm hf => exact FileAt.step (List.mem_cons_of_mem _ hm) hf

/-- Helper: the traversal output is exactly the set of reachable
regular-file paths. -/
theorem mem_recurseFiles (d : List Char) (es : List FsTree) :
    ∀ p, p ∈ recurseFiles d es ↔ FileAt d es p := by
  refine recurseFiles.induct
    (fun d e => ∀ p, p ∈ filesOfTree d e ↔
      ((∃ n, e = FsTree.file n ∧ p = d ++ '/' :: n) ∨
       (∃ n es', e = FsTree.dir n es' ∧ FileAt (d ++ '/' :: n) es' p)))
    (fun d es => ∀ p, p ∈ recurseFiles d es ↔ FileAt d es p)
    ?_ ?_ ?_ ?_ d es
  · intro d n p
    rw [filesOfTree]
    simp only [List.mem_singleton]
    constructor
    · intro h
      exact Or.inl ⟨n, rfl, h⟩
    · rintro (⟨n', hn, rfl⟩ | ⟨n', es', h, -⟩)
      · injection hn with hn'
        rw [hn']
      · cases h
  · intro d n es ih p
    rw [filesOfTree, ih p]
    constructor
    · intro h
      exact Or.inr ⟨n, es, rfl, h⟩
    · rintro (⟨n', h, -⟩ | ⟨n', es', h, hf⟩)
      · cases h
      · injection h with h1 h2
        rw [h1, h2]
        exact hf
  · intro d p
    rw [recurseFiles]
    exact iff_of_false (List.not_mem_nil p) FileAt_nil
  · intro d e rest ih1 ih2 p
    rw [recurseFiles, List.mem_append, ih1 p, ih2 p, FileAt_cons]

/-- Helper: inversion of directory reachability without committing to
the shape of the target path. -/
theorem DirAt_cases {d : List Char} {es : List FsTree} {p : List Char}
    (h : DirAt d es p) :
    ∃ n es', FsTree.dir n es' ∈ es ∧
      (p = d ++ '/' :: n ∨ DirAt (d ++ '/' :: n) es' p) := by
  cases h with
  | base hm => exact ⟨_, _, hm, Or.inl rfl⟩
  | step hm hd => exact ⟨_, _, hm, Or.inr hd⟩

/-- Helper: every reachable file path lies strictly below the root. -/
theorem FileAt_shape {d : List Char} {es : List FsTree} {p : List Char}
    (h : FileAt d es p) : ∃ t, p = d ++ '/' :: t := by
  induction h with
  | base hm => exact ⟨_, rfl⟩
  | @step d es n es' p hm hf ih =>
    obtain ⟨t, ht⟩ := ih
    exact ⟨n ++ '/' :: t, by simp [ht]⟩

/-- Helper: every reachable directory path lies strictly below the
root. -/
theorem DirAt_shape {d : List Char} {es : List FsTree} {p : List Char}
    (h : DirAt d es p) : ∃ t, p = d ++ '/' :: t := by
  induction h with
  | base hm => exact ⟨_, rfl⟩
  | @step d es n es' p hm hd ih =>
    obtain ⟨t, ht⟩ := ih
    exact ⟨n ++ '/' :: t, by simp [ht]⟩

/-- Helper: under well-formedness no path is both a reachable file and
a reachable directory. -/
theorem not_file_and_dir :
    ∀ {d : List Char} {es : List FsTree} {p : List Char}, FileAt d es p →
      wfEntriesB es = true → DirAt d es p → False := by
  intro d es p hf
  induction hf with
  | @base d es n hm =>
    intro hw hd
    obtain ⟨m, es₂, hm2, hcase⟩ := DirAt_cases hd
    have hwf : wfTreeB (FsTree.file n) = true := wfEntriesB_mem hw hm
    have hvn := (validNameB_iff n).mp (wfTreeB_validName hwf)
    rcases hcase with heq | hd'
    · have hc := List.append_cancel_left heq
      injection hc with _ hnm
      have := wf_entry_name_inj hw hm hm2 (by rw [entryName, entryName, hnm])
      cases this
    · obtain ⟨t, ht⟩ := DirAt_shape hd'
      have ht' : d ++ '/' :: n = d ++ '/' :: (m ++ '/' :: t) := by
        rw [ht]
        simp
      have hc := List.append_cancel_left ht'
      injection hc with _ hnm
      exact hvn.2 (by rw [hnm]; simp)
  | @step d es n es' p hm hf ih =>
    intro hw hd
    obtain ⟨m, es₂, hm2, hcase⟩ := DirAt_cases hd
    have hwd : wfTreeB (FsTree.dir n es') = true := wfEntriesB_mem hw hm
    have hwm : wfTreeB (FsTree.dir m es₂) = true := wfEntriesB_mem hw hm2
    have hvn := (validNameB_iff n).mp (wfTreeB_validName hwd)
    have hvm := (validNameB_iff m).mp (wfTreeB_validName hwm)
    obtain ⟨t1, ht1⟩ := FileAt_shape hf
    rcases hcase with heq | hd'
    · have ht' : d ++ '/' :: m = d ++ '/' :: (n ++ '/' :: t1) := by
        rw [← heq, ht1]
        simp
      have hc := List.append_cancel_left ht'
      injection hc with _ hnm
      exact hvm.2 (by rw [hnm]; simp)
    · obtain ⟨t2, ht2⟩ := DirAt_shape hd'
      have e1 : p = d ++ '/' :: (n ++ '/' :: t1) := by rw [ht1]; simp
      have e2 : p = d ++ '/' :: (m ++ '/' :: t2) := by rw [ht2]; simp
      have hc := List.append_cancel_left (e1.symm.trans e2)
      injection hc with _ heq2
      have hnm : n = m :=
        seg_eq hvn.2 hvm.2 (Or.inr ⟨t1, rfl⟩) (Or.inr ⟨t2, rfl⟩) heq2
      have hent : FsTree.dir n es' = FsTree.dir m es₂ :=
        wf_entry_name_inj hw hm hm2 (by rw [entryName, entryName, hnm])
      injection hent with _ hes
      refine ih (wfTreeB_dir hwd) ?_
      rw [hnm, hes]
      exact hd'

/-- C6: for a well-formed directory tree (nonempty, separator-free
entry names, distinct among siblings, as on a real file system), the
Tree Walker's output is exactly the set of regular-file paths reachable
by recursive descent: membership coincides with reachability as a
regular file, no reachable directory path is listed, and no path is
listed twice. -/
theorem tree_walker_exact (d : List Char) (es : List FsTree)
    (hw : wfEntriesB es = true) :
    (recurseFiles d es).Nodup ∧
    (∀ p, p ∈ recurseFiles d es ↔ FileAt d es p) ∧
    (∀ p, DirAt d es p → p ∉ recurseFiles d es) :=
  ⟨recurseFiles_nodup d es hw, mem_recurseFiles d es,
   fun p hd hp => not_file_and_dir ((mem_recurseFiles d es p).mp hp) hw hd⟩

/-- Witness for C6 at a concrete two-level tree. -/
theorem tree_walker_exact_witness :
    wfEntriesB [FsTree.file (str "a.css"),
      FsTree.dir (str "sub") [FsTree.file (str "b.css")]] = true ∧
    (recurseFiles (str "r") [FsTree.file (str "a.css"),
      FsTree.dir (str "sub") [FsTree.file (str "b.css")]]).Nodup :=
  ⟨by decide, (tree_walker_exact (str "r") [FsTree.file (str "a.css"),
      FsTree.dir (str "sub") [FsTree.file (str "b.css")]] (by decide)).1⟩

/-- Helper: the read loop emits only read and panic events, never a
write and never an opening of the destination. -/
theorem readMinifyAll_events (rho : List Char → OpenResult)
    (ps : List (List Char)) :
    ∀ e ∈ (readMinifyAll rho ps).1, isWrite e = false ∧ isOpenDest e = false := by
  induction ps with
  | nil => intro e he; rw [readMinifyAll] at he; cases he
  | cons q rest ih =>
    intro e he
    cases hq : rho q with
    | failed =>
      rw [readMinifyAll, hq] at he
      simp only [List.mem_singleton] at he
      rw [he]
      exact ⟨rfl, rfl⟩
    | opened buf ok =>
      rw [readMinifyAll, hq] at he
      rcases List.mem_cons.mp he with rfl | he'
      · exact ⟨rfl, rfl⟩
      · exact ih e he'

/-- Helper: an unopenable selected file makes the read loop panic with
no accumulated bundle. -/
theorem readMinifyAll_open_failure (rho : List Char → OpenResult) :
    ∀ ps : List (List Char), (∃ p ∈ ps, rho p = OpenResult.failed) →
      Event.panicked ∈ (readMinifyAll rho ps).1 ∧
      (readMinifyAll rho ps).2 = none := by
  intro ps
  induction ps with
  | nil => rintro ⟨p, hp, -⟩; cases hp
  | cons q rest ih =>
    rintro ⟨p, hp, hfail⟩
    cases hq : rho q with
    | failed => rw [readMinifyAll, hq]; exact ⟨List.mem_singleton.mpr rfl, rfl⟩
    | opened buf ok =>
      rcases List.mem_cons.mp hp with rfl | hp'
      · rw [hq] at hfail; cases hfail
      · have hr := ih ⟨p, hp', hfail⟩
        simp only [readMinifyAll, hq]
        exact ⟨List.mem_cons_of_mem _ hr.1, by rw [hr.2]; rfl⟩

/-- C7 fails as stated: in the run over the scenario files the
destination is opened with truncation at the second step, before any
selected file is read, so the bundle is not computed before the
destination is opened. -/
theorem dest_truncated_before_reads_counterexample :
    ¬ BundleBeforeDestOpen (minifyFilesTrace rhoAB fsAB (str "css")
      (str "assets") (str "style.css")) := by
  unfold BundleBeforeDestOpen
  decide

/-- C7 amended: the run's trace is the traversal, then the opening and
truncation of the destination, then the per-file read events, and then,
when no read panicked, one write of the whole in-memory bundle as the
final event; no write or destination opening occurs among the read
events, so the single write is never interleaved with reads, but the
destination is opened and truncated before the reads, not after. -/
theorem bundle_written_once_at_end (rho : List Char → OpenResult)
    (fs : List FsTree) (extension folder name : List Char) :
    ∃ evs acc,
      readMinifyAll rho (selectFiles (recurseFiles folder fs) extension
        (destPath folder name)) = (evs, acc) ∧
      minifyFilesTrace rho fs extension folder name =
        Event.walkDir folder :: Event.openTruncDest (destPath folder name) ::
          (evs ++ (acc.map Event.writeDest).toList) ∧
      (∀ e ∈ evs, isWrite e = false ∧ isOpenDest e = false) :=
  ⟨(readMinifyAll rho (selectFiles (recurseFiles folder fs) extension
      (destPath folder name))).1,
   (readMinifyAll rho (selectFiles (recurseFiles folder fs) extension
      (destPath folder name))).2,
   rfl, rfl, readMinifyAll_events rho _⟩

/-- C8 fails as stated: a selected file that opens but whose read
reports an error does not abort the build, because the read result is
discarded on main.rs line 89; the run still writes a bundle, with that
file contributing whatever the failed read left in the buffer. -/
theorem ignored_read_failure_still_writes :
    ¬ AbortOnReadFailure rhoReadFail fsAB (str "css") (str "r")
      (str "out.css") := by
  unfold AbortOnReadFailure
  decide

/-- C8 amended: if some selected file cannot be opened, the build
panics at that file and no bundle content is ever written to the
destination; only a failed open aborts, a failed read after a
successful open is ignored. -/
theorem open_failure_aborts_without_write (rho : List Char → OpenResult)
    (fs : List FsTree) (extension folder name : List Char)
    (h : ∃ p ∈ selectFiles (recurseFiles folder fs) extension
      (destPath folder name), rho p = OpenResult.failed) :
    Event.panicked ∈ minifyFilesTrace rho fs extension folder name ∧
    ∀ e ∈ minifyFilesTrace rho fs extension folder name,
      isWrite e = false := by
  have hsel := readMinifyAll_open_failure rho
    (selectFiles (recurseFiles folder fs) extension (destPath folder name)) h
  have hev := readMinifyAll_events rho
    (selectFiles (recurseFiles folder fs) extension (destPath folder name))
  rw [minifyFilesTrace]
  constructor
  · exact List.mem_cons_of_mem _ (List.mem_cons_of_mem _
      (List.mem_append_left _ hsel.1))
  · intro e he
    rcases List.mem_cons.mp he with rfl | he'
    · rfl
    · rcases List.mem_cons.mp he' with rfl | he''
      · rfl
      · rcases List.mem_append.mp he'' with hin | hin
        · exact (hev e hin).1
        · rw [hsel.2] at hin
          cases hin

/-- Witness for C8 amended: with no file openable, the run panics and
writes nothing. -/
theorem open_failure_aborts_without_write_witness :
    Event.panicked ∈ minifyFilesTrace rhoNoOpen fsAB (str "css") (str "r")
      (str "out.css") ∧
    ∀ e ∈ minifyFilesTrace rhoNoOpen fsAB (str "css") (str "r")
      (str "out.css"), isWrite e = false :=
  open_failure_aborts_without_write rhoNoOpen fsAB (str "css") (str "r")
    (str "out.css") ⟨str "r/a.css", by decide, by decide⟩

/-- Helper: the joined raw path is valid exactly when both parts are. -/
theorem joinRaw_isSome (d : Option (List Char)) (n : RawName) :
    (joinRaw d n).isSome = (d.isSome && rawValidB n) := by
  cases d <;> cases n <;> rfl

/-- Helper: a reachable file with a non-UTF-8 full path makes the raw
traversal panic. -/
theorem recurseFilesRaw_invalid (d : Option (List Char))
    (es : List RawFsTree) (h : hasInvalidListB d.isSome es = true) :
    recurseFilesRaw d es = none := by
  refine recurseFilesRaw.induct
    (fun d e => hasInvalidTreeB d.isSome e = true → filesOfRaw d e = none)
    (fun d es => hasInvalidListB d.isSome es = true → recurseFilesRaw d es = none)
    ?_ ?_ ?_ ?_ ?_ ?_ d es h
  · intro d n hj _
    rw [filesOfRaw, hj]
  · intro d n p hj hin
    rw [hasInvalidTreeB] at hin
    have hs : (joinRaw d n).isSome = true := by rw [hj]; rfl
    rw [joinRaw_isSome] at hs
    rw [hs] at hin
    cases hin
  · intro d n es ih hin
    rw [hasInvalidTreeB] at hin
    rw [filesOfRaw]
    exact ih (by rw [joinRaw_isSome]; exact hin)
  · intro d hin
    rw [hasInvalidListB] at hin
    cases hin
  · intro d e rest hnone _ _
    rw [recurseFilesRaw, hnone]
  · intro d e rest ps hsome ih1 ih2 hin
    rw [hasInvalidListB, Bool.or_eq_true] at hin
    rcases hin with hin | hin
    · rw [ih1 hin] at hsome
      cases hsome
    · rw [recurseFilesRaw, hsome, ih2 hin]
      rfl

/-- Helper: on an all-valid raw tree the raw traversal succeeds and
agrees with the plain traversal of the projection. -/
theorem recurseFilesRaw_valid (d : Option (List Char))
    (es : List RawFsTree) (h : allValidEntriesB es = true) :
    ∀ s, d = some s →
      recurseFilesRaw d es = some (recurseFiles s (projEntries es)) := by
  refine recurseFilesRaw.induct
    (fun d e => allValidTreeB e = true → ∀ s, d = some s →
      filesOfRaw d e = some (filesOfTree s (projTree e)))
    (fun d es => allValidEntriesB es = true → ∀ s, d = some s →
      recurseFilesRaw d es = some (recurseFiles s (projEntries es)))
    ?_ ?_ ?_ ?_ ?_ ?_ d es h
  · intro d n hj hv s hd
    rw [allValidTreeB] at hv
    exfalso
    have hs : (joinRaw d n).isSome = true := by
      rw [joinRaw_isSome, hd, hv]
      rfl
    rw [hj] at hs
    cases hs
  · intro d n p hj hv s hd
    rw [allValidTreeB] at hv
    cases n with
    | utf8 t =>
      rw [filesOfRaw, hj, projTree, filesOfTree]
      rw [hd] at hj
      rw [joinRaw] at hj
      injection hj with hj'
      rw [← hj', projName]
    | invalid i => cases hv
  · intro d n es ih hv s hd
    rw [allValidTreeB, Bool.and_eq_true] at hv
    cases n with
    | utf8 t =>
      rw [filesOfRaw, projTree, filesOfTree]
      exact ih hv.2 (s ++ '/' :: projName (RawName.utf8 t))
        (by rw [hd, joinRaw, projName])
    | invalid i => cases hv.1
  · intro d _ s hd
    rw [recurseFilesRaw, projEntries, recurseFiles]
  · intro d e rest hnone ih1 hv s hd
    rw [allValidEntriesB, Bool.and_eq_true] at hv
    rw [ih1 hv.1 s hd] at hnone
    cases hnone
  · intro d e rest ps hsome ih1 ih2 hv s hd
    rw [allValidEntriesB, Bool.and_eq_true] at hv
    rw [recurseFilesRaw, hsome, ih2 hv.2 s hd, projEntries, recurseFiles]
    have hps := ih1 hv.1 s hd
    rw [hsome] at hps
    injection hps with hps'
    rw [hps']
    rfl

/-- C10: a file entry whose full path is not valid UTF-8 makes the
Tree Walker panic (the unwrap on main.rs line 41), aborting the whole
traversal with no partial result rather than skipping the entry; and on
a tree whose paths are all valid UTF-8 the traversal always succeeds,
returning exactly the plain traversal of the tree, so the abort branch
is unreachable. -/
theorem nonUtf8_file_path_panics (d : List Char) (es : List RawFsTree) :
    (hasInvalidListB true es = true → recurseFilesRaw (some d) es = none) ∧
    (allValidEntriesB es = true →
      recurseFilesRaw (some d) es = some (recurseFiles d (projEntries es))) :=
  ⟨fun h => recurseFilesRaw_invalid (some d) es h,
   fun h => recurseFilesRaw_valid (some d) es h d rfl⟩

/-- Witness for C10: a concrete invalid-named file aborts the
traversal, and a concrete valid tree is traversed successfully. -/
theorem nonUtf8_file_path_panics_witness :
    recurseFilesRaw (some (str "r")) [RawFsTree.file (RawName.invalid 0)]
      = none ∧
    recurseFilesRaw (some (str "r"))
        [RawFsTree.file (RawName.utf8 (str "a.css"))]
      = some (recurseFiles (str "r")
          (projEntries [RawFsTree.file (RawName.utf8 (str "a.css"))])) :=
  ⟨(nonUtf8_file_path_panics (str "r")
      [RawFsTree.file (RawName.invalid 0)]).1 (by decide),
   (nonUtf8_file_path_panics (str "r")
      [RawFsTree.file (RawName.utf8 (str "a.css"))]).2 (by decide)⟩

end Rcss
